import Mathlib

/-!
Verification development for the Sakila Text2SQL evaluation engine
(file `03-Sakila-Text2SQL-评估体系.py`).  The Python methods of
`SakilaText2SQLEvaluator` are shallowly embedded as executable Lean
functions over `List Char` (Python `str`), `Int` (Python `int`) and `ℚ`
(Python `float`, used only where the float arithmetic is exact).
String operations model Python's `str` methods on ASCII text, which is
the character set SQL statements in this system use.
-/

namespace Sakila

/-- ASCII model of the whitespace class used by Python `str.strip` and
the regex `\s`: space, tab, newline, carriage return, vertical tab,
form feed. -/
def pyIsSpace (c : Char) : Bool :=
  c == ' ' || c == '\t' || c == '\n' || c == '\r' || c == Char.ofNat 11 || c == Char.ofNat 12

/-- ASCII model of Python `str.lower` applied character-wise. -/
def pyToLower (c : Char) : Char :=
  if 65 ≤ c.toNat ∧ c.toNat ≤ 90 then Char.ofNat (c.toNat + 32) else c

/-- ASCII model of Python `str.upper` applied character-wise. -/
def pyToUpper (c : Char) : Char :=
  if 97 ≤ c.toNat ∧ c.toNat ≤ 122 then Char.ofNat (c.toNat - 32) else c

/-- Python `str.lstrip()` (default whitespace). -/
def pyLstrip (l : List Char) : List Char := l.dropWhile pyIsSpace

/-- Python `str.rstrip()` (default whitespace). -/
def pyRstrip (l : List Char) : List Char := (l.reverse.dropWhile pyIsSpace).reverse

/-- Python `str.strip()` (default whitespace). -/
def pyStrip (l : List Char) : List Char := pyRstrip (pyLstrip l)

/-- Python `str.rstrip(ch)` for a single character `ch`: removes every
trailing occurrence of `ch`. -/
def pyRstripChar (ch : Char) (l : List Char) : List Char :=
  (l.reverse.dropWhile (fun c => c == ch)).reverse

/-- Worker for `collapseWs`: the flag records whether the scan stands
inside a whitespace run whose single replacement space was already
emitted. -/
def collapseAux : Bool → List Char → List Char
  | _, [] => []
  | inRun, c :: rest =>
    if pyIsSpace c then
      if inRun then collapseAux true rest else ' ' :: collapseAux true rest
    else c :: collapseAux false rest

/-- Model of `re.sub(r'\s+', ' ', s)`: every maximal run of whitespace
characters is replaced by a single ASCII space. -/
def collapseWs (l : List Char) : List Char := collapseAux false l

/-- The double-quote character. -/
def dquote : Char := Char.ofNat 34

/-- The single-quote character. -/
def squote : Char := Char.ofNat 39

/-- Model of `s.replace('"', "'")`. -/
def pyReplaceQuote (l : List Char) : List Char :=
  l.map (fun c => if c == dquote then squote else c)

/-- Embedding of `SakilaText2SQLEvaluator.normalize_sql`:
`sql.lower().strip()`, then collapse whitespace runs, then
`rstrip(';')`, then `replace('"', "'")`. -/
def normalize_sql (sql : List Char) : List Char :=
  pyReplaceQuote (pyRstripChar ';' (collapseWs (pyStrip (sql.map pyToLower))))

/-- Normalizer modelled from the spec's words in §4.1 / claim C4:
lowercase; collapse whitespace runs; trim; strip at most one single
trailing `;`; replace double quotes by single quotes.  Used only to
compare the spec's description against `normalize_sql`. -/
def specNormalizeOneSemi (sql : List Char) : List Char :=
  let t := pyStrip (collapseWs (sql.map pyToLower))
  let t := match t.getLast? with
    | some c => if c == ';' then t.dropLast else t
    | none => t
  pyReplaceQuote t

/-- Normalizer that follows the spec's transform order (lowercase,
collapse, trim, strip trailing semicolons, replace quotes) but strips
all trailing semicolons, as the code's `rstrip(';')` does. -/
def specNormalizeAllSemis (sql : List Char) : List Char :=
  pyReplaceQuote (pyRstripChar ';' (pyStrip (collapseWs (sql.map pyToLower))))

/-- Number of occurrences of a character in a string. -/
def countChar (b : List Char) (c : Char) : Nat :=
  (b.filter (fun x => x == c)).length

/-- The ascending list of positions of `c` in `b`. -/
def positionsOf (b : List Char) (c : Char) : List Nat :=
  (List.range b.length).filter (fun j => b.get? j == some c)

/-- The autojunk test of `SequenceMatcher.__chain_b`: for `len(b) ≥ 200`,
characters occurring more than `len(b) // 100 + 1` times are dropped
from the index. -/
def isPopular (b : List Char) (c : Char) : Bool :=
  decide (200 ≤ b.length) && decide (b.length / 100 + 1 < countChar b c)

/-- The `b2j` index of `SequenceMatcher`: positions of each character of
`b`, with popular characters removed by autojunk. -/
def b2j (b : List Char) (c : Char) : List Nat :=
  if isPopular b c then [] else positionsOf b c

/-- Lookup in an association list, defaulting to 0; models
`j2len.get(j, 0)` for the dict of the `find_longest_match` loop. -/
def lookupZero (l : List (Nat × Nat)) (j : Nat) : Nat :=
  (l.lookup j).getD 0

/-- Models `j2len.get(j-1, 0)` with Python's convention that index
`-1` is absent from the dict. -/
def prevLen (l : List (Nat × Nat)) (j : Nat) : Nat :=
  if j = 0 then 0 else lookupZero l (j - 1)

/-- The inner `for j in b2j.get(a[i], [])` loop of
`find_longest_match`: skips `j < blo`, breaks at `j ≥ bhi`, records
`newj2len[j] = j2len.get(j-1, 0) + 1` and updates the best block when
`k > bestsize`.  State: `(newj2len, (besti, bestj, bestsize))`. -/
def flmInner (blo bhi : Nat) (prev : List (Nat × Nat)) (i : Nat) :
    List Nat → List (Nat × Nat) → Nat × Nat × Nat → List (Nat × Nat) × (Nat × Nat × Nat)
  | [], acc, best => (acc, best)
  | j :: js, acc, best =>
    if j < blo then flmInner blo bhi prev i js acc best
    else if bhi ≤ j then (acc, best)
    else
      let k := prevLen prev j + 1
      let acc := (j, k) :: acc
      let best := if best.2.2 < k then (i + 1 - k, j + 1 - k, k) else best
      flmInner blo bhi prev i js acc best

/-- The outer `for i in range(alo, ahi)` loop of `find_longest_match`. -/
def flmRows (a : List Char) (b2jf : Char → List Nat) (blo bhi : Nat) :
    List Nat → List (Nat × Nat) → Nat × Nat × Nat → List (Nat × Nat) × (Nat × Nat × Nat)
  | [], j2len, best => (j2len, best)
  | i :: is, j2len, best =>
    let cands := match a.get? i with
      | some c => b2jf c
      | none => []
    let (newj2len, best) := flmInner blo bhi j2len i cands [] best
    flmRows a b2jf blo bhi is newj2len best

/-- The first extension loop of `find_longest_match` (the junk set is
empty, so the two junk extension loops never run): extend the block to
the left over equal characters.  Structural recursion on `besti`, which
the loop decrements. -/
def extLeft (a b : List Char) (alo blo : Nat) :
    Nat → Nat → Nat → Nat × Nat × Nat
  | 0, bestj, bestsize => (0, bestj, bestsize)
  | besti + 1, bestj, bestsize =>
    if alo < besti + 1 ∧ blo < bestj ∧ a.get? besti = b.get? (bestj - 1)
        ∧ (a.get? besti).isSome then
      extLeft a b alo blo besti (bestj - 1) (bestsize + 1)
    else (besti + 1, bestj, bestsize)

/-- The second extension loop of `find_longest_match`: extend the block
to the right over equal characters.  The first `Nat` argument is fuel;
the loop body runs at most `ahi` times because each step needs
`besti + bestsize < ahi` and increments `bestsize`, so fuel `ahi` (as
supplied by `findLongestMatch`) never runs out. -/
def extRight (a b : List Char) (ahi bhi : Nat) : Nat → Nat → Nat → Nat → Nat
  | 0, _, _, bestsize => bestsize
  | fuel + 1, besti, bestj, bestsize =>
    if besti + bestsize < ahi ∧ bestj + bestsize < bhi
        ∧ a.get? (besti + bestsize) = b.get? (bestj + bestsize)
        ∧ (a.get? (besti + bestsize)).isSome then
      extRight a b ahi bhi fuel besti bestj (bestsize + 1)
    else bestsize

/-- Embedding of `SequenceMatcher.find_longest_match(alo, ahi, blo, bhi)`
with an empty junk set. -/
def findLongestMatch (a b : List Char) (b2jf : Char → List Nat)
    (alo ahi blo bhi : Nat) : Nat × Nat × Nat :=
  let (_, best) := flmRows a b2jf blo bhi (List.range' alo (ahi - alo)) [] (alo, blo, 0)
  let (besti, bestj, bestsize) := extLeft a b alo blo best.1 best.2.1 best.2.2
  let bestsize := extRight a b ahi bhi (ahi + 1) besti bestj bestsize
  (besti, bestj, bestsize)

/-- Total size of the matching blocks found by the recursive region
splitting of `SequenceMatcher.get_matching_blocks` (the queue order and
the final sort/merge do not affect the total).  Fuel-based recursion;
`matchesTotal` supplies fuel exceeding the region measure, which
strictly decreases at each split. -/
def matchesIn (a b : List Char) (b2jf : Char → List Nat) :
    Nat → Nat × Nat × Nat × Nat → Nat
  | 0, _ => 0
  | fuel + 1, (alo, ahi, blo, bhi) =>
    let (i, j, k) := findLongestMatch a b b2jf alo ahi blo bhi
    if k = 0 then 0
    else
      k + (if alo < i ∧ blo < j then matchesIn a b b2jf fuel (alo, i, blo, j) else 0)
        + (if i + k < ahi ∧ j + k < bhi then matchesIn a b b2jf fuel (i + k, ahi, j + k, bhi) else 0)

/-- Sum of the sizes of all matching blocks, as used by
`SequenceMatcher.ratio`. -/
def matchesTotal (a b : List Char) : Nat :=
  matchesIn a b (b2j b) (a.length + b.length + 1) (0, a.length, 0, b.length)

/-- Embedding of `SequenceMatcher.ratio()`: `2*M/T`, and `1.0` when
both strings are empty (`_calculate_ratio`). -/
def smRatio (a b : List Char) : ℚ :=
  if a.length + b.length = 0 then 1
  else 2 * (matchesTotal a b : ℚ) / ((a.length + b.length : Nat) : ℚ)

/-- Embedding of `SakilaText2SQLEvaluator.sql_similarity`: normalize
both inputs, then apply the sequence matcher ratio. -/
def sql_similarity (sql1 sql2 : List Char) : ℚ :=
  smRatio (normalize_sql sql1) (normalize_sql sql2)

/-- Embedding of `SakilaText2SQLEvaluator.exact_match_score`. -/
def exact_match_score (predicted_sql reference_sql : List Char) : ℚ :=
  if normalize_sql predicted_sql = normalize_sql reference_sql then 1 else 0

/-!
Model of the SQL executor.  The sqlite3 connection is the external
collaborator: a `DbOracle` gives, for every database state, the
outcome of `sqlite3.connect`, of `cursor.execute(sql); fetchall()` on
the read path, and of `cursor.execute(sql); rowcount; commit()` on the
mutating path.  A raised Python exception is an `Except.error`; the
database state only advances on a committed mutation (closing a
connection without commit rolls uncommitted changes back).
-/

/-- Python `s.startswith(pre)`. -/
def pyStartsWith (pre l : List Char) : Bool :=
  decide (l.take pre.length = pre)

/-- Model of `sql.strip().upper().startswith(kw)`, the statement
classification used by `execute_sql` and `select_test_subset`. -/
def sqlStartsWith (kw : String) (sql : List Char) : Bool :=
  pyStartsWith kw.data ((pyStrip sql).map pyToUpper)

/-- The trimmed, upper-cased leading token (up to the first whitespace)
of a SQL statement.  Used only to state the spec's "leading token"
classification of claim C8, to be compared with the code's prefix
test. -/
def leadingToken (sql : List Char) : List Char :=
  ((pyStrip sql).map pyToUpper).takeWhile (fun c => !pyIsSpace c)

/-- The second component of Python's `(success, result)` pair returned
by `execute_sql`: a row list (read path), an affected-row count
(mutating path), or the stringified error message. -/
inductive ExecResult (α : Type) where
  | rows : List (List α) → ExecResult α
  | count : Int → ExecResult α
  | err : String → ExecResult α
deriving DecidableEq

/-- Connection bookkeeping of one `execute_sql` invocation: whether a
connection was opened, whether it was closed again, and whether
`conn.commit()` ran. -/
structure ExecTrace where
  opened : Bool
  closed : Bool
  committed : Bool
deriving DecidableEq

/-- The sqlite3 collaborator: `connectErr` is the error message when
`sqlite3.connect` itself raises, `queryRows` the outcome of executing
and fetching a read statement, `execCount` the outcome (affected-row
count and committed successor state) of a mutating statement. -/
structure DbOracle (σ α : Type) where
  connectErr : σ → Option String
  queryRows : σ → List Char → Except String (List (List α))
  execCount : σ → List Char → Except String (Int × σ)

/-- Embedding of `SakilaText2SQLEvaluator.execute_sql`: classify by
`sql.strip().upper().startswith('SELECT')`; read path fetches all rows
and does not commit; mutating path commits and returns the affected
count; every exception from the body is caught and returned as
`(False, str(e))`, closing the connection if one was opened. -/
def execute_sql (ora : DbOracle σ α) (s : σ) (sql : List Char) :
    (Bool × ExecResult α) × σ × ExecTrace :=
  match ora.connectErr s with
  | some e => ((false, .err e), s, ⟨false, false, false⟩)
  | none =>
    if sqlStartsWith "SELECT" sql then
      match ora.queryRows s sql with
      | .ok rs => ((true, .rows rs), s, ⟨true, true, false⟩)
      | .error e => ((false, .err e), s, ⟨true, true, false⟩)
    else
      match ora.execCount s sql with
      | .ok (n, s2) => ((true, .count n), s2, ⟨true, true, true⟩)
      | .error e => ((false, .err e), s, ⟨true, true, false⟩)

/-- Embedding of `SakilaText2SQLEvaluator.execution_accuracy`: execute
the predicted SQL, then the reference SQL (each call opening its own
connection, threading the database state), and compare. -/
def execution_accuracy [DecidableEq α] (ora : DbOracle σ α) (s : σ)
    (predicted_sql reference_sql : List Char) : ℚ × σ :=
  let (pr, s1, _) := execute_sql ora s predicted_sql
  let (rr, s2, _) := execute_sql ora s1 reference_sql
  (if pr.1 = true ∧ rr.1 = true then (if pr.2 = rr.2 then 1 else 0)
   else if pr.1 = false ∧ rr.1 = false then 1
   else 0, s2)

/-- The per-case accuracy as claim C1 states it: a pure function of the
two `(success, result)` outcomes alone.  Both failing yields `1`
without inspecting the error payloads. -/
def accOf [DecidableEq α] (p q : Bool × ExecResult α) : ℚ :=
  if p.1 = true ∧ q.1 = true then (if p.2 = q.2 then 1 else 0)
  else if p.1 = false ∧ q.1 = false then 1
  else 0

/-- One labelled test case: `{question, sql}` record of the corpus. -/
structure TestCase where
  question : List Char
  sql : List Char
deriving DecidableEq

/-- The per-case result dict built by `evaluate_single_query`. -/
structure CaseResult (α : Type) where
  question : List Char
  reference_sql : List Char
  predicted_sql : List Char
  exact_match : ℚ
  similarity : ℚ
  execution_accuracy : ℚ
  is_executable : Bool
  execution_result : ExecResult α
deriving DecidableEq

/-- Embedding of `SakilaText2SQLEvaluator.evaluate_single_query`.  The
LLM collaborator `generate_sql` is the parameter `gen` (its internal
try/except already degrades failures to an empty string, so it is a
total function).  The predicted SQL is executed inside
`execution_accuracy` and then a second time for `is_executable`. -/
def evaluate_single_query [DecidableEq α] (ora : DbOracle σ α) (gen : List Char → List Char)
    (s : σ) (question reference_sql : List Char) : CaseResult α × σ :=
  let predicted_sql := gen question
  let em := exact_match_score predicted_sql reference_sql
  let sim := sql_similarity predicted_sql reference_sql
  let acc := execution_accuracy ora s predicted_sql reference_sql
  let ex := execute_sql ora acc.2 predicted_sql
  (⟨question, reference_sql, predicted_sql, em, sim, acc.1, ex.1.1, ex.1.2⟩, ex.2.1)

/-- Model of `np.mean` on an exact list of values: `none` models the
NaN that numpy returns (with a warning, not an exception) for an empty
input. -/
def npMean (l : List ℚ) : Option ℚ :=
  if l.isEmpty then none else some (l.sum / (l.length : ℚ))

/-- The overall results dict built by `evaluate_dataset`. -/
structure AggReport (α : Type) where
  total_samples : Nat
  exact_match_accuracy : Option ℚ
  average_similarity : Option ℚ
  execution_accuracy : Option ℚ
  execution_success_rate : Option ℚ
  detailed_results : List (CaseResult α)
deriving DecidableEq

/-- The evaluation loop of `evaluate_dataset`: evaluate every case in
order, threading the database state. -/
def evalCases [DecidableEq α] (ora : DbOracle σ α) (gen : List Char → List Char) :
    σ → List TestCase → List (CaseResult α) × σ
  | s, [] => ([], s)
  | s, t :: ts =>
    let (r, s2) := evaluate_single_query ora gen s t.question t.sql
    let (rs, s3) := evalCases ora gen s2 ts
    (r :: rs, s3)

/-- Embedding of `SakilaText2SQLEvaluator.evaluate_dataset`: run every
case, then reduce each metric with `np.mean`.  The Python body contains
no raise path; an empty input produces NaN means, not an error. -/
def evaluate_dataset [DecidableEq α] (ora : DbOracle σ α) (gen : List Char → List Char)
    (s : σ) (test_data : List TestCase) : AggReport α × σ :=
  let (results, s2) := evalCases ora gen s test_data
  (⟨results.length,
    npMean (results.map (fun r => r.exact_match)),
    npMean (results.map (fun r => r.similarity)),
    npMean (results.map (fun r => r.execution_accuracy)),
    npMean (results.map (fun r => if r.is_executable then 1 else 0)),
    results⟩, s2)

/-!
The corpus sampler.  Python slice arithmetic on `int` indices is
modelled exactly, including negative values.
-/

/-- Clamp one Python slice endpoint to `[0, n]`. -/
def pyIdx (n : Nat) (i : Int) : Nat :=
  if i < 0 then ((n : Int) + i).toNat else min i.toNat n

/-- Python `l[lo:hi]`. -/
def pySlice (l : List β) (lo hi : Int) : List β :=
  (l.take (pyIdx l.length hi)).drop (pyIdx l.length lo)

/-- Python `l[:hi]`. -/
def pySliceTo (l : List β) (hi : Int) : List β :=
  pySlice l 0 hi

/-- Embedding of `SakilaText2SQLEvaluator.select_test_subset` as a
function of the loaded corpus (`self.test_data`) and the requested
count. -/
def select_test_subset (test_data : List TestCase) (count : Int) : List TestCase :=
  if (test_data.length : Int) ≤ count then test_data
  else
    let select_queries := test_data.filter (fun t => sqlStartsWith "SELECT" t.sql)
    let insert_queries := test_data.filter (fun t => sqlStartsWith "INSERT" t.sql)
    let update_queries := test_data.filter (fun t => sqlStartsWith "UPDATE" t.sql)
    let delete_queries := test_data.filter (fun t => sqlStartsWith "DELETE" t.sql)
    let select_count := min (count.fdiv 2) (select_queries.length : Int)
    let insert_count := min (count.fdiv 6) (insert_queries.length : Int)
    let update_count := min (count.fdiv 6) (update_queries.length : Int)
    let delete_count := min (count - select_count - insert_count - update_count)
      (delete_queries.length : Int)
    let selected := pySliceTo select_queries select_count
      ++ pySliceTo insert_queries insert_count
      ++ pySliceTo update_queries update_count
      ++ pySliceTo delete_queries delete_count
    let remaining := count - (selected.length : Int)
    let selected := if 0 < remaining then
        selected ++ pySlice select_queries select_count (select_count + remaining)
      else selected
    pySliceTo selected count

/-- The sampler as claim C9 describes it, for a nonnegative count:
partition into the four buckets, take the quota prefix of each, let the
DELETE quota be the remainder capped at its bucket, backfill from the
unused tail of the SELECT bucket, truncate to `count`. -/
def specSample (corpus : List TestCase) (count : Nat) : List TestCase :=
  let S := corpus.filter (fun t => sqlStartsWith "SELECT" t.sql)
  let I := corpus.filter (fun t => sqlStartsWith "INSERT" t.sql)
  let U := corpus.filter (fun t => sqlStartsWith "UPDATE" t.sql)
  let D := corpus.filter (fun t => sqlStartsWith "DELETE" t.sql)
  let sq := min (count / 2) S.length
  let iq := min (count / 6) I.length
  let uq := min (count / 6) U.length
  let dq := min (count - sq - iq - uq) D.length
  let base := S.take sq ++ I.take iq ++ U.take uq ++ D.take dq
  let backfill := (S.drop sq).take (count - base.length)
  (base ++ backfill).take count

/-- The sampler exactly as claim C9 and spec §4.5 word it: partition
the corpus by the case-insensitive LEADING KEYWORD of the reference
SQL (`SELECT`, `INSERT`, `UPDATE`, `DELETE`; any other leading keyword
is excluded from all buckets), then apply the same quotas, order,
SELECT-tail backfill and truncation.  Only used to compare the claim's
wording against `select_test_subset`. -/
def specSampleKeyword (corpus : List TestCase) (count : Nat) : List TestCase :=
  let S := corpus.filter (fun t => leadingToken t.sql == "SELECT".data)
  let I := corpus.filter (fun t => leadingToken t.sql == "INSERT".data)
  let U := corpus.filter (fun t => leadingToken t.sql == "UPDATE".data)
  let D := corpus.filter (fun t => leadingToken t.sql == "DELETE".data)
  let sq := min (count / 2) S.length
  let iq := min (count / 6) I.length
  let uq := min (count / 6) U.length
  let dq := min (count - sq - iq - uq) D.length
  let base := S.take sq ++ I.take iq ++ U.take uq ++ D.take dq
  let backfill := (S.drop sq).take (count - base.length)
  (base ++ backfill).take count

/-- A corpus distinguishing the claim's keyword partition from the
code's prefix partition: the first case's reference SQL starts with
`selectx`, whose leading keyword is `SELECTX`. -/
def c9cexCorpus : List TestCase :=
  [⟨"q0".data, "selectx 1".data⟩, ⟨"q1".data, "SELECT 1".data⟩,
   ⟨"q2".data, "INSERT 1".data⟩, ⟨"q3".data, "UPDATE 1".data⟩,
   ⟨"q4".data, "DELETE 1".data⟩]

/-!
Proof scaffolding for the matcher: the length of the diagonal run of
indexed positions ending at `i`, used to show that on equal inputs the
best block found by the DP loop always lies on the diagonal.
-/

/-- Position `i` of `x` carries its own character in the index `f`. -/
def diagOKb (x : List Char) (f : Char → List Nat) (i : Nat) : Bool :=
  match x.get? i with
  | some c => decide (i ∈ f c)
  | none => false

/-- Length of the maximal run of consecutive indexed positions of `x`
ending at `i`. -/
def dr (x : List Char) (f : Char → List Nat) : Nat → Nat
  | 0 => if diagOKb x f 0 then 1 else 0
  | i + 1 => if diagOKb x f (i + 1) then dr x f i + 1 else 0

/-- The best-block update performed for one inner-loop candidate of
`find_longest_match`, extracted for reasoning about the fold. -/
def smUpdate (prev : List (Nat × Nat)) (i : Nat) (best : Nat × Nat × Nat) (j : Nat) :
    Nat × Nat × Nat :=
  let k := prevLen prev j + 1
  if best.2.2 < k then (i + 1 - k, j + 1 - k, k) else best

/-- The invariant carried through the row loop of
`find_longest_match` when both inputs are the same string `x` (full
window, `alo = blo = 0`, `ahi = bhi = x.length`): the best block lies
on the diagonal, ends before row `i`, dominates every diagonal run
seen so far, and `j2len` holds chain lengths bounded by the diagonal
runs, with the diagonal entry exact. -/
def smDiagInv (x : List Char) (f : Char → List Nat) (i : Nat)
    (st : List (Nat × Nat) × (Nat × Nat × Nat)) : Prop :=
  st.2.2.1 = st.2.1 ∧
  st.2.1 + st.2.2.2 ≤ i ∧
  (∀ r, r < i → dr x f r ≤ st.2.2.2) ∧
  (∀ p ∈ st.1, 1 ≤ p.2 ∧ p.2 ≤ dr x f p.1 ∧ p.2 ≤ dr x f (i - 1)) ∧
  (0 < i → lookupZero st.1 (i - 1) = dr x f (i - 1)) ∧
  (i = 0 → st.1 = [])

/-!
Concrete collaborators used to evaluate the executor and evaluator at
specific inputs.
-/

/-- A database oracle that always connects, returns no rows for reads,
and reports zero affected rows without changing state for mutations. -/
def unitOracle : DbOracle Unit Int :=
  ⟨fun _ => none, fun _ _ => Except.ok [], fun s _ => Except.ok (0, s)⟩

/-- A generation collaborator that always produces the empty string. -/
def emptyGen : List Char → List Char := fun _ => []

/-- A database state counting committed mutations; the mutating path
succeeds only on the first commit and then fails, like an INSERT of a
fixed primary key. -/
def onceOracle : DbOracle Nat Int :=
  ⟨fun _ => none, fun _ _ => Except.ok [[1]],
   fun s _ => if s = 0 then Except.ok (1, 1) else Except.error "UNIQUE constraint failed"⟩

/-- A database oracle whose mutating path always succeeds and
increments the committed-mutation counter. -/
def incrOracle : DbOracle Nat Int :=
  ⟨fun _ => none, fun _ _ => Except.ok [[1]], fun s _ => Except.ok (1, s + 1)⟩

/-- A generation collaborator that always predicts the same mutating
statement. -/
def insGen : List Char → List Char := fun _ => "INSERT INTO t VALUES (1)".data

/-- An oracle whose connect step always fails. -/
def connFailOracle : DbOracle Unit Int :=
  ⟨fun _ => some "unable to open database file", fun _ _ => Except.ok [],
   fun s _ => Except.ok (0, s)⟩

/-- An oracle for which every statement execution raises, like queries
against a missing table. -/
def errOracle : DbOracle Unit Int :=
  ⟨fun _ => none, fun _ _ => Except.error "no such table: t",
   fun _ _ => Except.error "no such table: t"⟩

/-- The corpus of claim C9's concrete instance: ten SELECT cases, three
INSERT cases, three UPDATE cases, two DELETE cases, in this order. -/
def c9corpus : List TestCase :=
  [⟨"qs0".data, "SELECT 0".data⟩, ⟨"qs1".data, "SELECT 1".data⟩,
   ⟨"qs2".data, "SELECT 2".data⟩, ⟨"qs3".data, "SELECT 3".data⟩,
   ⟨"qs4".data, "SELECT 4".data⟩, ⟨"qs5".data, "SELECT 5".data⟩,
   ⟨"qs6".data, "SELECT 6".data⟩, ⟨"qs7".data, "SELECT 7".data⟩,
   ⟨"qs8".data, "SELECT 8".data⟩, ⟨"qs9".data, "SELECT 9".data⟩,
   ⟨"qi0".data, "INSERT 0".data⟩, ⟨"qi1".data, "INSERT 1".data⟩,
   ⟨"qi2".data, "INSERT 2".data⟩,
   ⟨"qu0".data, "UPDATE 0".data⟩, ⟨"qu1".data, "UPDATE 1".data⟩,
   ⟨"qu2".data, "UPDATE 2".data⟩,
   ⟨"qd0".data, "DELETE 0".data⟩, ⟨"qd1".data, "DELETE 1".data⟩]

/-! ### Supporting lemmas: characters -/

theorem char_toNat_ofNat (n : Nat) (h : n.isValidChar) : (Char.ofNat n).toNat = n := by
  unfold Char.ofNat
  rw [dif_pos h]
  unfold Char.ofNatAux Char.toNat
  simp [UInt32.toNat]

theorem pyToLower_toNat (c : Char) (h : 65 ≤ c.toNat ∧ c.toNat ≤ 90) :
    (pyToLower c).toNat = c.toNat + 32 := by
  unfold pyToLower
  rw [if_pos h]
  exact char_toNat_ofNat _ (Or.inl (by omega))

theorem pyIsSpace_toNat (c : Char) (h : pyIsSpace c = true) : c.toNat ≤ 32 := by
  unfold pyIsSpace at h
  simp only [Bool.or_eq_true, beq_iff_eq] at h
  rcases h with ((((h | h) | h) | h) | h) | h <;> subst h <;> decide

theorem pyToLower_space (c : Char) : pyIsSpace (pyToLower c) = pyIsSpace c := by
  by_cases h : 65 ≤ c.toNat ∧ c.toNat ≤ 90
  · have h2 := pyToLower_toNat c h
    have hc : pyIsSpace c = false := by
      cases hs : pyIsSpace c
      · rfl
      · exact absurd (pyIsSpace_toNat c hs) (by omega)
    have hl : pyIsSpace (pyToLower c) = false := by
      cases hs : pyIsSpace (pyToLower c)
      · rfl
      · exact absurd (pyIsSpace_toNat _ hs) (by omega)
    rw [hc, hl]
  · rw [show pyToLower c = c from by unfold pyToLower ; rw [if_neg h]]

/-! ### Supporting lemmas: dropWhile, strip, rstrip -/

theorem dropWhile_head_not (p : Char → Bool) (l : List Char) (c : Char)
    (h : (l.dropWhile p).head? = some c) : p c = false := by
  induction l with
  | nil => simp [List.dropWhile] at h
  | cons d t ih =>
    rw [List.dropWhile_cons] at h
    by_cases hp : p d = true
    · rw [if_pos hp] at h
      exact ih h
    · rw [if_neg hp] at h
      simp only [List.head?_cons, Option.some.injEq] at h
      subst h
      simpa using hp

theorem dropWhile_eq_self (p : Char → Bool) (l : List Char)
    (h : ∀ c, l.head? = some c → p c = false) : l.dropWhile p = l := by
  cases l with
  | nil => rfl
  | cons d t =>
    rw [List.dropWhile_cons, if_neg]
    simp [h d rfl]

theorem rstrip_getLast_not (p : Char → Bool) (l : List Char) (c : Char)
    (h : ((l.reverse.dropWhile p).reverse).getLast? = some c) : p c = false := by
  rw [List.getLast?_reverse] at h
  exact dropWhile_head_not p _ c h

theorem pyRstrip_cons_ne (c : Char) (r : List Char) (h2 : pyRstrip r ≠ []) :
    pyRstrip (c :: r) = c :: pyRstrip r := by
  unfold pyRstrip at *
  rw [List.reverse_cons, List.dropWhile_append, if_neg, List.reverse_append]
  · rfl
  · simp only [List.isEmpty_iff]
    intro hh
    exact h2 (by rw [hh]; rfl)

theorem pyRstrip_cons_neg (c : Char) (r : List Char) (h : pyIsSpace c = false) :
    pyRstrip (c :: r) = c :: pyRstrip r := by
  by_cases h2 : pyRstrip r = []
  · unfold pyRstrip at *
    have h3 : List.dropWhile pyIsSpace r.reverse = [] := by
      simpa [List.reverse_eq_nil_iff] using h2
    rw [List.reverse_cons, List.dropWhile_append, if_pos (by simp [h3]), List.dropWhile_cons,
      if_neg (by simp [h]), h2]
    rfl
  · exact pyRstrip_cons_ne c r h2

theorem pyRstrip_cons_ws_nil (c : Char) (r : List Char) (h : pyIsSpace c = true)
    (h2 : pyRstrip r = []) : pyRstrip (c :: r) = [] := by
  unfold pyRstrip at *
  have h3 : List.dropWhile pyIsSpace r.reverse = [] := by
    simpa [List.reverse_eq_nil_iff] using h2
  rw [List.reverse_cons, List.dropWhile_append, if_pos (by simp [h3]), List.dropWhile_cons,
    if_pos (by simp [h])]
  rfl

theorem lstrip_rstrip_comm (l : List Char) : pyLstrip (pyRstrip l) = pyRstrip (pyLstrip l) := by
  induction l with
  | nil => rfl
  | cons c t ih =>
    by_cases hc : pyIsSpace c = true
    · by_cases hr : pyRstrip t = []
      · rw [pyRstrip_cons_ws_nil c t hc hr]
        have : pyLstrip (c :: t) = pyLstrip t := by
          unfold pyLstrip
          rw [List.dropWhile_cons, if_pos hc]
        rw [this, ← ih, hr]
      · rw [pyRstrip_cons_ne c t hr]
        have h1 : pyLstrip (c :: pyRstrip t) = pyLstrip (pyRstrip t) := by
          unfold pyLstrip
          rw [List.dropWhile_cons, if_pos hc]
        have h2 : pyLstrip (c :: t) = pyLstrip t := by
          unfold pyLstrip
          rw [List.dropWhile_cons, if_pos hc]
        rw [h1, h2, ih]
    · simp only [Bool.not_eq_true] at hc
      rw [pyRstrip_cons_neg c t hc]
      have h1 : pyLstrip (c :: pyRstrip t) = c :: pyRstrip t := by
        unfold pyLstrip
        rw [List.dropWhile_cons, if_neg (by simp [hc])]
      have h2 : pyLstrip (c :: t) = c :: t := by
        unfold pyLstrip
        rw [List.dropWhile_cons, if_neg (by simp [hc])]
      rw [h1, h2, pyRstrip_cons_neg c t hc]

/-! ### Supporting lemmas: collapseWs -/

theorem collapseAux_true (r : List Char) :
    collapseAux true r = collapseAux false (r.dropWhile pyIsSpace) := by
  induction r with
  | nil => rfl
  | cons c t ih =>
    by_cases hc : pyIsSpace c = true
    · rw [List.dropWhile_cons, if_pos hc]
      show (if pyIsSpace c then if true then collapseAux true t
        else ' ' :: collapseAux true t else c :: collapseAux false t) = _
      rw [if_pos hc]
      exact ih
    · simp only [Bool.not_eq_true] at hc
      rw [List.dropWhile_cons, if_neg (by simp [hc])]
      show (if pyIsSpace c then if true then collapseAux true t
        else ' ' :: collapseAux true t else c :: collapseAux false t) = _
      rw [if_neg (by simp [hc])]
      show _ = (if pyIsSpace c then if false then collapseAux true t
        else ' ' :: collapseAux true t else c :: collapseAux false t)
      rw [if_neg (by simp [hc])]

theorem collapseWs_cons_ws (c : Char) (r : List Char) (h : pyIsSpace c = true) :
    collapseWs (c :: r) = ' ' :: collapseWs (r.dropWhile pyIsSpace) := by
  show (if pyIsSpace c then if false then collapseAux true r
    else ' ' :: collapseAux true r else c :: collapseAux false r) = _
  rw [if_pos h]
  show ' ' :: collapseAux true r = ' ' :: collapseWs (r.dropWhile pyIsSpace)
  rw [collapseAux_true]
  rfl

theorem collapseWs_cons_neg (c : Char) (r : List Char) (h : pyIsSpace c = false) :
    collapseWs (c :: r) = c :: collapseWs r := by
  show (if pyIsSpace c then if false then collapseAux true r
    else ' ' :: collapseAux true r else c :: collapseAux false r) = _
  rw [if_neg (by simp [h])]
  rfl

theorem collapseWs_nil : collapseWs [] = [] := rfl

theorem collapseWs_induction (motive : List Char → Prop) (h1 : motive [])
    (h2 : ∀ c rest, pyIsSpace c = true → motive (rest.dropWhile pyIsSpace) → motive (c :: rest))
    (h3 : ∀ c rest, pyIsSpace c = false → motive rest → motive (c :: rest)) :
    ∀ l, motive l := by
  intro l
  generalize hn : l.length = n
  induction n using Nat.strong_induction_on generalizing l with
  | _ n ih =>
    cases l with
    | nil => exact h1
    | cons c rest =>
      by_cases hc : pyIsSpace c = true
      · refine h2 c rest hc (ih (rest.dropWhile pyIsSpace).length ?_ _ rfl)
        rw [← hn]
        simpa using Nat.lt_succ_of_le (List.dropWhile_sublist (l := rest) pyIsSpace).length_le
      · refine h3 c rest (by simpa using hc) (ih rest.length ?_ _ rfl)
        rw [← hn]
        simp

theorem collapseWs_head? (l : List Char) :
    (collapseWs l).head? = l.head?.map (fun c => if pyIsSpace c then ' ' else c) := by
  cases l with
  | nil => rw [collapseWs_nil] ; rfl
  | cons c r =>
    by_cases h : pyIsSpace c = true
    · rw [collapseWs_cons_ws c r h]
      simp [h]
    · rw [collapseWs_cons_neg c r (by simpa using h)]
      simp only [Bool.not_eq_true] at h
      simp [h]

theorem collapseWs_ne_nil (l : List Char) (h : l ≠ []) : collapseWs l ≠ [] := by
  cases l with
  | nil => exact absurd rfl h
  | cons c r =>
    by_cases hc : pyIsSpace c = true
    · rw [collapseWs_cons_ws c r hc]
      exact List.cons_ne_nil _ _
    · rw [collapseWs_cons_neg c r (by simpa using hc)]
      exact List.cons_ne_nil _ _

theorem pyRstrip_eq_nil_dropWhile (l : List Char) (h : pyRstrip l = []) :
    l.dropWhile pyIsSpace = [] := by
  unfold pyRstrip at h
  rw [List.reverse_eq_nil_iff] at h
  rw [List.dropWhile_eq_nil_iff] at h ⊢
  intro x hx
  exact h x (List.mem_reverse.mpr hx)

theorem collapse_lstrip (l : List Char) :
    collapseWs (pyLstrip l) = pyLstrip (collapseWs l) := by
  cases l with
  | nil => simp [pyLstrip, collapseWs_nil]
  | cons c r =>
    by_cases hc : pyIsSpace c = true
    · have h1 : pyLstrip (c :: r) = r.dropWhile pyIsSpace := by
        unfold pyLstrip
        rw [List.dropWhile_cons, if_pos hc]
      rw [h1, collapseWs_cons_ws c r hc]
      have h2 : pyLstrip (' ' :: collapseWs (r.dropWhile pyIsSpace))
          = pyLstrip (collapseWs (r.dropWhile pyIsSpace)) := by
        unfold pyLstrip
        rw [List.dropWhile_cons, if_pos (by decide)]
      rw [h2]
      have h3 : List.dropWhile pyIsSpace (collapseWs (r.dropWhile pyIsSpace))
          = collapseWs (r.dropWhile pyIsSpace) := by
        apply dropWhile_eq_self
        intro d hd
        rw [collapseWs_head?] at hd
        cases h4 : (r.dropWhile pyIsSpace).head? with
        | none => rw [h4] at hd ; exact absurd hd (by simp)
        | some e =>
          rw [h4] at hd
          simp only [Option.map_some', Option.some.injEq] at hd
          have he : pyIsSpace e = false := dropWhile_head_not pyIsSpace r e h4
          rw [← hd, if_neg (by simp [he])]
          exact he
      unfold pyLstrip
      rw [h3]
    · simp only [Bool.not_eq_true] at hc
      have h1 : pyLstrip (c :: r) = c :: r := by
        unfold pyLstrip
        rw [List.dropWhile_cons, if_neg (by simp [hc])]
      rw [h1, collapseWs_cons_neg c r hc]
      have h2 : pyLstrip (c :: collapseWs r) = c :: collapseWs r := by
        unfold pyLstrip
        rw [List.dropWhile_cons, if_neg (by simp [hc])]
      rw [h2]

theorem collapse_rstrip (l : List Char) :
    collapseWs (pyRstrip l) = pyRstrip (collapseWs l) := by
  induction l using collapseWs_induction with
  | h1 => simp [pyRstrip, collapseWs_nil]
  | h2 c rest hc ih =>
    rw [collapseWs_cons_ws c rest hc]
    by_cases hr : pyRstrip rest = []
    · rw [pyRstrip_cons_ws_nil c rest hc hr, collapseWs_nil]
      have h1 : rest.dropWhile pyIsSpace = [] := pyRstrip_eq_nil_dropWhile rest hr
      rw [h1, collapseWs_nil, pyRstrip_cons_ws_nil ' ' [] (by decide) rfl]
    · rw [pyRstrip_cons_ne c rest hr, collapseWs_cons_ws c (pyRstrip rest) hc]
      have h1 : (pyRstrip rest).dropWhile pyIsSpace = pyRstrip (rest.dropWhile pyIsSpace) := by
        have := lstrip_rstrip_comm rest
        unfold pyLstrip at this
        exact this
      rw [h1, ih]
      have h2 : pyRstrip (collapseWs (rest.dropWhile pyIsSpace)) ≠ [] := by
        rw [← ih]
        apply collapseWs_ne_nil
        rw [← h1]
        intro hnil
        have hlast : ∃ d, (pyRstrip rest).getLast? = some d := by
          rw [Option.isSome_iff_exists.symm, List.getLast?_isSome]
          exact hr
        rcases hlast with ⟨d, hd⟩
        have hdw : pyIsSpace d = false := by
          unfold pyRstrip at hd
          exact rstrip_getLast_not pyIsSpace rest d hd
        rw [List.dropWhile_eq_nil_iff] at hnil
        have hmem : d ∈ pyRstrip rest := by
          rcases List.getLast?_eq_some_iff.mp hd with ⟨l2, hl2⟩
          rw [hl2]
          exact List.mem_append_right l2 (List.mem_singleton.mpr rfl)
        rw [hnil d hmem] at hdw
        exact absurd hdw (by simp)
      rw [pyRstrip_cons_ne ' ' _ h2]
  | h3 c rest hc ih =>
    rw [collapseWs_cons_neg c rest hc]
    by_cases hr : pyRstrip rest = []
    · have h0 : pyRstrip (c :: rest) = [c] := by
        rw [pyRstrip_cons_neg c rest hc, hr]
      rw [h0]
      have h1 : pyRstrip (collapseWs rest) = [] := by
        rw [← ih, hr, collapseWs_nil]
      rw [pyRstrip_cons_neg c (collapseWs rest) hc, h1]
      rw [show collapseWs [c] = c :: collapseWs [] from collapseWs_cons_neg c [] hc,
        collapseWs_nil]
    · rw [pyRstrip_cons_ne c rest hr, collapseWs_cons_neg c (pyRstrip rest) hc, ih,
        pyRstrip_cons_neg c (collapseWs rest) hc]

theorem collapse_strip (l : List Char) :
    collapseWs (pyStrip l) = pyStrip (collapseWs l) := by
  unfold pyStrip
  rw [collapse_rstrip (pyLstrip l), collapse_lstrip l]

/-! ### Supporting lemmas: the normalized form is a fixed point shape -/

/-- Claim C4 states that `normalize_sql` equals the pipeline lowercase,
collapse whitespace, trim, strip at most ONE trailing semicolon,
replace double quotes, so that an input ending in `";;"` keeps one
semicolon.  This is false: the code uses `rstrip(';')`, which strips
every trailing semicolon, so `normalize_sql "a;;"` is `"a"` while the
claimed pipeline gives `"a;"`. -/
theorem c4_one_semi_pipeline_cex :
    normalize_sql ("a;;".data) ≠ specNormalizeOneSemi ("a;;".data) := by
  decide

/-- Claim C4 amended: `normalize_sql` equals the spec's pipeline with
the semicolon step strengthened to strip ALL trailing semicolons (an
input ending in `";;"` keeps none). -/
theorem c4_normalize_transform_pipeline (s : List Char) :
    normalize_sql s = specNormalizeAllSemis s := by
  unfold normalize_sql specNormalizeAllSemis
  rw [collapse_strip]

/-! ### Claim C6: symmetry of the similarity scorer -/

/-- Claim C6 states `similarity(a, b) = similarity(b, a)` for all
strings.  This is false: `difflib.SequenceMatcher`'s greedy block
matching is order dependent.  For `a = "xypqsr"` and `b = "pqrxy"`
(both already in normalized form) the matcher finds blocks `xy` only
in one direction but `pq` and `r` in the other: the scores are `4/11`
and `6/11`. -/
theorem c6_similarity_not_symmetric :
    sql_similarity ("xypqsr".data) ("pqrxy".data) ≠
      sql_similarity ("pqrxy".data) ("xypqsr".data) := by
  have hna : normalize_sql "xypqsr".data = "xypqsr".data := by decide
  have hnb : normalize_sql "pqrxy".data = "pqrxy".data := by decide
  have h1 : matchesTotal "xypqsr".data "pqrxy".data = 2 := by decide
  have h2 : matchesTotal "pqrxy".data "xypqsr".data = 3 := by decide
  unfold sql_similarity
  rw [hna, hnb]
  unfold smRatio
  rw [h1, h2]
  norm_num

/-- Claim C6 amended: the similarity scorer is symmetric on every pair
whose normalized forms coincide (the matcher then receives identical
argument pairs); in general swapping the arguments can change the
score. -/
theorem c6_similarity_symmetric_of_norm_eq (a b : List Char)
    (h : normalize_sql a = normalize_sql b) :
    sql_similarity a b = sql_similarity b a := by
  unfold sql_similarity
  rw [h]

/-- Witness for the amended claim C6 at `"SELECT 1"` and
`"select  1;"`. -/
theorem c6_witness :
    normalize_sql ("SELECT 1".data) = normalize_sql ("select  1;".data) ∧
      sql_similarity ("SELECT 1".data) ("select  1;".data) =
        sql_similarity ("select  1;".data) ("SELECT 1".data) :=
  ⟨by decide, c6_similarity_symmetric_of_norm_eq _ _ (by decide)⟩

/-! ### Supporting lemmas: the matcher index and diagonal runs -/

theorem lookup_mem (l : List (Nat × Nat)) (k v : Nat) (h : l.lookup k = some v) :
    (k, v) ∈ l := by
  induction l with
  | nil => simp [List.lookup] at h
  | cons p t ih =>
    cases p with
    | mk a b =>
      by_cases hk : k = a
      · subst hk
        simp [List.lookup] at h
        subst h
        exact List.mem_cons_self _ _
      · have hba : (k == a) = false := by simpa using hk
        simp [List.lookup, hba] at h
        exact List.mem_cons_of_mem _ (ih h)

theorem lookup_eq_of_mem_nodup (l : List (Nat × Nat)) (k v : Nat)
    (hm : (k, v) ∈ l) (hn : (l.map Prod.fst).Nodup) : l.lookup k = some v := by
  induction l with
  | nil => exact absurd hm (List.not_mem_nil _)
  | cons p t ih =>
    cases p with
    | mk a b =>
      rcases List.mem_cons.mp hm with he | hm2
      · rw [Prod.mk.injEq] at he
        rw [he.1] at *
        simp [List.lookup, he.2]
      · have hk : k ≠ a := by
          intro hka
          subst hka
          simp only [List.map_cons, List.nodup_cons] at hn
          exact hn.1 (List.mem_map.mpr ⟨(k, v), hm2, rfl⟩)
        have hba : (k == a) = false := by simpa using hk
        simp only [List.map_cons, List.nodup_cons] at hn
        simp [List.lookup, hba]
        exact ih hm2 hn.2

theorem lookupZero_le (prev : List (Nat × Nat)) (m K : Nat)
    (hC : ∀ p ∈ prev, p.2 ≤ K) : lookupZero prev m ≤ K := by
  unfold lookupZero
  cases hl : prev.lookup m with
  | none => simp
  | some v => simpa using hC (m, v) (lookup_mem prev m v hl)

theorem dr_zero_eq (x : List Char) (f : Char → List Nat) :
    dr x f 0 = if diagOKb x f 0 = true then 1 else 0 := rfl

theorem dr_succ_eq (x : List Char) (f : Char → List Nat) (m : Nat) :
    dr x f (m + 1) = if diagOKb x f (m + 1) = true then dr x f m + 1 else 0 := rfl

theorem dr_le (x : List Char) (f : Char → List Nat) (i : Nat) : dr x f i ≤ i + 1 := by
  induction i with
  | zero =>
    rw [dr_zero_eq]
    by_cases h : diagOKb x f 0 = true <;> simp [h]
  | succ m ih =>
    rw [dr_succ_eq]
    by_cases h : diagOKb x f (m + 1) = true
    · rw [if_pos h] ; omega
    · rw [if_neg h] ; omega

theorem dr_succ_of_diag (x : List Char) (f : Char → List Nat) (m : Nat)
    (h : diagOKb x f (m + 1) = true) : dr x f (m + 1) = dr x f m + 1 := by
  rw [dr_succ_eq, if_pos h]

theorem dr_zero_of_diag (x : List Char) (f : Char → List Nat)
    (h : diagOKb x f 0 = true) : dr x f 0 = 1 := by
  rw [dr_zero_eq, if_pos h]

theorem dr_eq_zero_of_not_diag (x : List Char) (f : Char → List Nat) (i : Nat)
    (h : diagOKb x f i = false) : dr x f i = 0 := by
  cases i with
  | zero => rw [dr_zero_eq, if_neg (by simp [h])]
  | succ m => rw [dr_succ_eq, if_neg (by simp [h])]

theorem b2j_sound (x : List Char) (c : Char) (j : Nat) (h : j ∈ b2j x c) :
    x.get? j = some c := by
  unfold b2j at h
  by_cases hp : isPopular x c = true
  · rw [if_pos hp] at h
    exact absurd h (List.not_mem_nil _)
  · rw [if_neg hp] at h
    unfold positionsOf at h
    have := List.of_mem_filter h
    simpa using this

theorem b2j_lt_length (x : List Char) (c : Char) (j : Nat) (h : j ∈ b2j x c) :
    j < x.length := by
  have := b2j_sound x c j h
  rw [List.get?_eq_some] at this
  exact this.1

theorem b2j_self (x : List Char) (i : Nat) (c : Char) (h : x.get? i = some c)
    (hne : b2j x c ≠ []) : i ∈ b2j x c := by
  unfold b2j at *
  by_cases hp : isPopular x c = true
  · rw [if_pos hp] at hne
    exact absurd rfl hne
  · rw [if_neg hp]
    unfold positionsOf
    apply List.mem_filter.mpr
    constructor
    · apply List.mem_range.mpr
      rw [List.get?_eq_some] at h
      exact h.1
    · show (x.get? i == some c) = true
      rw [h]
      simp

theorem b2j_sorted (x : List Char) (c : Char) : (b2j x c).Pairwise (· < ·) := by
  unfold b2j
  by_cases hp : isPopular x c = true
  · rw [if_pos hp]
    exact List.Pairwise.nil
  · rw [if_neg hp]
    unfold positionsOf
    exact List.Pairwise.sublist (List.filter_sublist _) (List.pairwise_lt_range _)

theorem diagOKb_of_mem (x : List Char) (j : Nat) (c : Char)
    (hc : x.get? j = some c) (h : j ∈ b2j x c) : diagOKb x (b2j x) j = true := by
  unfold diagOKb
  rw [hc]
  simpa using h

/-! ### Supporting lemmas: one row of the DP loop -/

theorem flmInner_cons (blo bhi : Nat) (prev : List (Nat × Nat)) (i j : Nat)
    (js : List Nat) (acc : List (Nat × Nat)) (best : Nat × Nat × Nat)
    (h1 : ¬ j < blo) (h2 : ¬ bhi ≤ j) :
    flmInner blo bhi prev i (j :: js) acc best =
      flmInner blo bhi prev i js ((j, prevLen prev j + 1) :: acc) (smUpdate prev i best j) := by
  show (if j < blo then flmInner blo bhi prev i js acc best
    else if bhi ≤ j then (acc, best)
    else flmInner blo bhi prev i js ((j, prevLen prev j + 1) :: acc)
      (if best.2.2 < prevLen prev j + 1
        then (i + 1 - (prevLen prev j + 1), j + 1 - (prevLen prev j + 1), prevLen prev j + 1)
        else best)) = _
  rw [if_neg h1, if_neg h2]
  rfl

theorem flmInner_eq (blo bhi : Nat) (prev : List (Nat × Nat)) (i : Nat) (js : List Nat)
    (acc : List (Nat × Nat)) (best : Nat × Nat × Nat)
    (hj : ∀ j ∈ js, blo ≤ j ∧ j < bhi) :
    flmInner blo bhi prev i js acc best =
      ((js.map (fun j => (j, prevLen prev j + 1))).reverse ++ acc,
        js.foldl (smUpdate prev i) best) := by
  induction js generalizing acc best with
  | nil => rfl
  | cons j t ih =>
    have hj1 := hj j (List.mem_cons_self _ _)
    rw [flmInner_cons blo bhi prev i j t acc best (by omega) (by omega)]
    rw [ih _ _ (fun j' hj' => hj j' (List.mem_cons_of_mem _ hj'))]
    simp [List.append_assoc]

theorem foldl_smUpdate_fix (prev : List (Nat × Nat)) (i : Nat) (js : List Nat)
    (best : Nat × Nat × Nat)
    (h : ∀ j ∈ js, prevLen prev j + 1 ≤ best.2.2) :
    js.foldl (smUpdate prev i) best = best := by
  induction js with
  | nil => rfl
  | cons j t ih =>
    have h1 := h j (List.mem_cons_self _ _)
    have hstep : smUpdate prev i best j = best := by
      unfold smUpdate
      rw [if_neg (by omega)]
    rw [List.foldl_cons, hstep]
    exact ih (fun j' hj' => h j' (List.mem_cons_of_mem _ hj'))

theorem lookupZero_le_key (prev : List (Nat × Nat)) (m K : Nat)
    (h : ∀ v, (m, v) ∈ prev → v ≤ K) : lookupZero prev m ≤ K := by
  unfold lookupZero
  cases hl : prev.lookup m with
  | none => simp
  | some v => simpa using h v (lookup_mem prev m v hl)

theorem prevLen_le_dr (x : List Char) (f : Char → List Nat) (prev : List (Nat × Nat))
    (j : Nat) (hC : ∀ p ∈ prev, p.2 ≤ dr x f p.1)
    (hd : diagOKb x f j = true) : prevLen prev j + 1 ≤ dr x f j := by
  cases j with
  | zero =>
    unfold prevLen
    rw [if_pos rfl, dr_zero_of_diag x f hd]
  | succ m =>
    unfold prevLen
    rw [if_neg (by omega), dr_succ_of_diag x f m hd]
    simp only [Nat.add_sub_cancel]
    have hk := lookupZero_le_key prev m (dr x f m)
      (fun v hv => by simpa using hC (m, v) hv)
    omega

theorem prevLen_row_bound (x : List Char) (f : Char → List Nat) (i : Nat)
    (prev : List (Nat × Nat)) (j : Nat)
    (hC : ∀ p ∈ prev, p.2 ≤ dr x f (i - 1))
    (hEmpty : i = 0 → prev = [])
    (hdi : diagOKb x f i = true) : prevLen prev j + 1 ≤ dr x f i := by
  cases i with
  | zero =>
    rw [hEmpty rfl]
    unfold prevLen lookupZero
    rw [dr_zero_of_diag x f hdi]
    cases j <;> simp [List.lookup]
  | succ m =>
    rw [dr_succ_of_diag x f m hdi]
    cases j with
    | zero =>
      unfold prevLen
      rw [if_pos rfl]
      omega
    | succ j' =>
      unfold prevLen
      rw [if_neg (by omega)]
      simp only [Nat.add_sub_cancel]
      have hk := lookupZero_le prev j' (dr x f m) (fun p hp => by simpa using hC p hp)
      omega

theorem prevLen_diag_exact (x : List Char) (f : Char → List Nat) (i : Nat)
    (prev : List (Nat × Nat))
    (hE : 0 < i → lookupZero prev (i - 1) = dr x f (i - 1))
    (hE0 : i = 0 → prev = [])
    (hdi : diagOKb x f i = true) : prevLen prev i + 1 = dr x f i := by
  cases i with
  | zero =>
    unfold prevLen
    rw [if_pos rfl, dr_zero_of_diag x f hdi]
  | succ m =>
    unfold prevLen
    rw [if_neg (by omega)]
    simp only [Nat.add_sub_cancel]
    have h1 := hE (by omega)
    simp only [Nat.add_sub_cancel] at h1
    rw [h1, dr_succ_of_diag x f m hdi]

/-- One row of the DP loop preserves the diagonal invariant. -/
theorem row_step (x : List Char) (i : Nat) (hi : i < x.length)
    (st : List (Nat × Nat) × (Nat × Nat × Nat))
    (hInv : smDiagInv x (b2j x) i st) :
    smDiagInv x (b2j x) (i + 1)
      (flmInner 0 x.length st.1 i
        (match x.get? i with | some c => b2j x c | none => []) [] st.2) := by
  obtain ⟨hA, hD, hB, hC, hE, hE0⟩ := hInv
  cases hg : x.get? i with
  | none =>
    rw [List.get?_eq_none] at hg
    omega
  | some c =>
    show smDiagInv x (b2j x) (i + 1) (flmInner 0 x.length st.1 i (b2j x c) [] st.2)
    by_cases hfc : b2j x c = []
    · rw [hfc]
      show smDiagInv x (b2j x) (i + 1) ([], st.2)
      have hdi : diagOKb x (b2j x) i = false := by
        unfold diagOKb
        rw [hg]
        simp [hfc]
      have hdr0 : dr x (b2j x) i = 0 := dr_eq_zero_of_not_diag x (b2j x) i hdi
      refine ⟨hA, by show st.2.1 + st.2.2.2 ≤ i + 1 ; omega, ?_, ?_, ?_, ?_⟩
      · intro r hr
        by_cases hri : r < i
        · exact hB r hri
        · have : r = i := by omega
          rw [this, hdr0]
          omega
      · intro p hp
        exact absurd hp (List.not_mem_nil p)
      · intro _
        simp only [Nat.add_sub_cancel]
        rw [hdr0]
        rfl
      · intro h
        exact absurd h (by omega)
    · have hmem : i ∈ b2j x c := b2j_self x i c hg hfc
      have hdi : diagOKb x (b2j x) i = true := diagOKb_of_mem x i c hg hmem
      have hdiag_of_mem : ∀ j ∈ b2j x c, diagOKb x (b2j x) j = true := by
        intro j hj
        exact diagOKb_of_mem x j c (b2j_sound x c j hj) hj
      have hCd : ∀ p ∈ st.1, p.2 ≤ dr x (b2j x) p.1 := fun p hp => (hC p hp).2.1
      have hCr : ∀ p ∈ st.1, p.2 ≤ dr x (b2j x) (i - 1) := fun p hp => (hC p hp).2.2
      have hkle : ∀ j ∈ b2j x c, prevLen st.1 j + 1 ≤ dr x (b2j x) j :=
        fun j hj => prevLen_le_dr x (b2j x) st.1 j hCd (hdiag_of_mem j hj)
      have hkrow : ∀ j, prevLen st.1 j + 1 ≤ dr x (b2j x) i :=
        fun j => prevLen_row_bound x (b2j x) i st.1 j hCr hE0 hdi
      have hki : prevLen st.1 i + 1 = dr x (b2j x) i :=
        prevLen_diag_exact x (b2j x) i st.1 hE hE0 hdi
      rw [flmInner_eq 0 x.length st.1 i (b2j x c) [] st.2
        (fun j hj => ⟨Nat.zero_le j, b2j_lt_length x c j hj⟩), List.append_nil]
      have hdl := dr_le x (b2j x) i
      obtain ⟨pre, post, hsplit⟩ := List.append_of_mem hmem
      have hsort := b2j_sorted x c
      rw [hsplit, List.pairwise_append] at hsort
      have hpre_lt : ∀ j ∈ pre, j < i :=
        fun j hj => hsort.2.2 j hj i (List.mem_cons_self _ _)
      have hpost_gt : ∀ j ∈ post, i < j :=
        fun j hj => (List.pairwise_cons.mp hsort.2.1).1 j hj
      have hfold : (b2j x c).foldl (smUpdate st.1 i) st.2
          = smUpdate st.1 i st.2 i ∨
          ((b2j x c).foldl (smUpdate st.1 i) st.2 = st.2 ∧
            dr x (b2j x) i ≤ st.2.2.2) := by
        rw [hsplit, List.foldl_append]
        rw [foldl_smUpdate_fix st.1 i pre st.2 (fun j hj => by
          have h1 := hkle j (hsplit ▸ List.mem_append_left _ hj)
          have h2 := hB j (hpre_lt j hj)
          omega)]
        rw [List.foldl_cons]
        by_cases hup : st.2.2.2 < prevLen st.1 i + 1
        · left
          apply foldl_smUpdate_fix
          intro j hj
          have h1 := hkrow j
          have h2 : smUpdate st.1 i st.2 i = (i + 1 - (prevLen st.1 i + 1),
              i + 1 - (prevLen st.1 i + 1), prevLen st.1 i + 1) := by
            unfold smUpdate
            rw [if_pos hup]
          rw [h2]
          simp only
          omega
        · right
          have h2 : smUpdate st.1 i st.2 i = st.2 := by
            unfold smUpdate
            rw [if_neg hup]
          rw [h2]
          refine ⟨foldl_smUpdate_fix st.1 i post st.2 (fun j hj => by
            have h1 := hkrow j
            omega), by omega⟩
      -- the new j2len and its properties
      refine ⟨?_, ?_, ?_, ?_, ?_, ?_⟩
      · -- best block stays diagonal
        rcases hfold with hm | ⟨hm, _⟩
        · simp only [hm]
          unfold smUpdate
          by_cases hup : st.2.2.2 < prevLen st.1 i + 1
          · rw [if_pos hup]
          · rw [if_neg hup] ; exact hA
        · simp only [hm] ; exact hA
      · -- block ends at or before row i+1
        rcases hfold with hm | ⟨hm, _⟩
        · simp only [hm]
          unfold smUpdate
          by_cases hup : st.2.2.2 < prevLen st.1 i + 1
          · rw [if_pos hup]
            simp only
            omega
          · rw [if_neg hup] ; omega
        · simp only [hm] ; omega
      · -- best size dominates every diagonal run up to i
        have hge : dr x (b2j x) i ≤ ((b2j x c).foldl (smUpdate st.1 i) st.2).2.2 ∧
            st.2.2.2 ≤ ((b2j x c).foldl (smUpdate st.1 i) st.2).2.2 := by
          rcases hfold with hm | ⟨hm, hbs⟩
          · rw [hm]
            unfold smUpdate
            by_cases hup : st.2.2.2 < prevLen st.1 i + 1
            · rw [if_pos hup]
              simp only
              omega
            · rw [if_neg hup]
              omega
          · rw [hm]
            exact ⟨hbs, le_refl _⟩
        intro r hr
        by_cases hri : r < i
        · exact le_trans (hB r hri) hge.2
        · have : r = i := by omega
          rw [this]
          exact hge.1
      · -- chain entries are bounded by the diagonal runs
        intro p hp
        simp only [List.mem_reverse] at hp
        rcases List.mem_map.mp hp with ⟨j, hj, hpe⟩
        subst hpe
        refine ⟨by omega, hkle j hj, ?_⟩
        simp only [Nat.add_sub_cancel]
        exact Nat.lt_succ_iff.mp (Nat.lt_succ_of_le (hkrow j))
      · -- the diagonal entry is exact
        intro _
        simp only [Nat.add_sub_cancel]
        have hnd : ((((b2j x c).map
            (fun j => (j, prevLen st.1 j + 1))).reverse).map Prod.fst).Nodup := by
          rw [List.map_reverse, List.nodup_reverse, List.map_map]
          have : (Prod.fst ∘ fun j => (j, prevLen st.1 j + 1)) = id := rfl
          rw [this, List.map_id]
          exact List.Pairwise.imp (fun h => Nat.ne_of_lt h) (b2j_sorted x c)
        have hml : (i, prevLen st.1 i + 1)
            ∈ ((b2j x c).map (fun j => (j, prevLen st.1 j + 1))).reverse := by
          rw [List.mem_reverse]
          exact List.mem_map.mpr ⟨i, hmem, rfl⟩
        unfold lookupZero
        rw [lookup_eq_of_mem_nodup _ i (prevLen st.1 i + 1) hml hnd]
        simpa using hki
      · intro h
        exact absurd h (by omega)

/-! ### Supporting lemmas: the row fold and the extension loops -/

theorem flmRows_cons (a : List Char) (f : Char → List Nat) (blo bhi i : Nat)
    (is : List Nat) (j2len : List (Nat × Nat)) (best : Nat × Nat × Nat) :
    flmRows a f blo bhi (i :: is) j2len best =
      flmRows a f blo bhi is
        (flmInner blo bhi j2len i
          (match a.get? i with | some c => f c | none => []) [] best).1
        (flmInner blo bhi j2len i
          (match a.get? i with | some c => f c | none => []) [] best).2 := by
  show (match flmInner blo bhi j2len i
      (match a.get? i with | some c => f c | none => []) [] best with
    | (newj2len, best2) => flmRows a f blo bhi is newj2len best2) = _
  rcases hfi : flmInner blo bhi j2len i
    (match a.get? i with | some c => f c | none => []) [] best with ⟨n, b⟩
  rfl

theorem smDiagInv_init (x : List Char) : smDiagInv x (b2j x) 0 ([], (0, 0, 0)) := by
  refine ⟨rfl, by show (0 : Nat) + 0 ≤ 0 ; omega, ?_, ?_, ?_, fun _ => rfl⟩
  · intro r hr
    exact absurd hr (by omega)
  · intro p hp
    exact absurd hp (List.not_mem_nil p)
  · intro h
    exact absurd h (by omega)

theorem flmRows_inv (x : List Char) : ∀ (m s0 : Nat)
    (st : List (Nat × Nat) × (Nat × Nat × Nat)),
    s0 + m ≤ x.length → smDiagInv x (b2j x) s0 st →
    smDiagInv x (b2j x) (s0 + m)
      (flmRows x (b2j x) 0 x.length (List.range' s0 m) st.1 st.2) := by
  intro m
  induction m with
  | zero =>
    intro s0 st _ h
    show smDiagInv x (b2j x) (s0 + 0) (flmRows x (b2j x) 0 x.length [] st.1 st.2)
    show smDiagInv x (b2j x) (s0 + 0) (st.1, st.2)
    simpa using h
  | succ k ih =>
    intro s0 st hle hInv
    rw [List.range'_succ, flmRows_cons]
    have hstep := row_step x s0 (by omega) st hInv
    have := ih (s0 + 1)
      (flmInner 0 x.length st.1 s0
        (match x.get? s0 with | some c => b2j x c | none => []) [] st.2)
      (by omega) hstep
    have heq : s0 + 1 + k = s0 + (k + 1) := by omega
    rw [heq] at this
    exact this

theorem extLeft_diag (x : List Char) (m : Nat) (hm : m ≤ x.length) :
    ∀ s, extLeft x x 0 0 m m s = (0, 0, s + m) := by
  induction m with
  | zero => intro s ; rfl
  | succ m ih =>
    intro s
    have hms : m < x.length := by omega
    show (if 0 < m + 1 ∧ 0 < m + 1 ∧ x.get? m = x.get? (m + 1 - 1)
        ∧ (x.get? m).isSome then extLeft x x 0 0 m (m + 1 - 1) (s + 1)
      else (m + 1, m + 1, s)) = (0, 0, s + (m + 1))
    rw [if_pos ⟨by omega, by omega, by simp, by rw [List.get?_eq_get hms] ; rfl⟩]
    simp only [Nat.add_sub_cancel]
    rw [ih (by omega) (s + 1)]
    have : s + 1 + m = s + (m + 1) := by omega
    rw [this]

theorem extRight_diag (x : List Char) : ∀ (fuel s : Nat), s ≤ x.length →
    x.length ≤ s + fuel → extRight x x x.length x.length fuel 0 0 s = x.length := by
  intro fuel
  induction fuel with
  | zero =>
    intro s h1 h2
    show s = x.length
    omega
  | succ fuel ih =>
    intro s h1 h2
    by_cases hs : s < x.length
    · show (if 0 + s < x.length ∧ 0 + s < x.length ∧ x.get? (0 + s) = x.get? (0 + s)
          ∧ (x.get? (0 + s)).isSome then extRight x x x.length x.length fuel 0 0 (s + 1)
        else s) = x.length
      rw [if_pos ⟨by omega, by omega, rfl, by
        rw [List.get?_eq_get (show 0 + s < x.length by omega)] ; rfl⟩]
      exact ih (s + 1) (by omega) (by omega)
    · show (if 0 + s < x.length ∧ 0 + s < x.length ∧ x.get? (0 + s) = x.get? (0 + s)
          ∧ (x.get? (0 + s)).isSome then extRight x x x.length x.length fuel 0 0 (s + 1)
        else s) = x.length
      rw [if_neg (by omega)]
      omega

/-- On equal inputs, `find_longest_match` over the full window returns
the whole diagonal. -/
theorem findLongestMatch_self (x : List Char) :
    findLongestMatch x x (b2j x) 0 x.length 0 x.length = (0, 0, x.length) := by
  have hInv := flmRows_inv x x.length 0 ([], (0, 0, 0)) (by omega) (smDiagInv_init x)
  simp only [Nat.zero_add] at hInv
  rcases hst : flmRows x (b2j x) 0 x.length (List.range' 0 x.length) [] (0, 0, 0)
    with ⟨j2, bi, bj, bs⟩
  rw [hst] at hInv
  obtain ⟨hA, hD, _, _, _, _⟩ := hInv
  simp only at hA hD
  subst hA
  unfold findLongestMatch
  simp only [Nat.sub_zero]
  rw [hst]
  show (match extLeft x x 0 0 bj bj bs with
    | (besti, bestj, bestsize) =>
      (besti, bestj, extRight x x x.length x.length (x.length + 1) besti bestj bestsize))
    = ((0 : Nat), (0 : Nat), x.length)
  rw [extLeft_diag x bj (by omega) bs]
  show ((0 : Nat), (0 : Nat),
    extRight x x x.length x.length (x.length + 1) 0 0 (bs + bj)) = (0, 0, x.length)
  rw [extRight_diag x (x.length + 1) (bs + bj) (by omega) (by omega)]

/-- On equal inputs the matching blocks cover the whole string. -/
theorem matchesTotal_self (x : List Char) : matchesTotal x x = x.length := by
  unfold matchesTotal
  by_cases hn : x.length = 0
  · have h0 := findLongestMatch_self x
    rw [hn] at h0
    rw [hn]
    show matchesIn x x (b2j x) (0 + 0 + 1) (0, 0, 0, 0) = 0
    simp [matchesIn, h0]
  · simp only [matchesIn, findLongestMatch_self x]
    simp [hn]

/-- On equal inputs the matcher ratio is exactly 1. -/
theorem smRatio_self (x : List Char) : smRatio x x = 1 := by
  unfold smRatio
  by_cases hn : x.length + x.length = 0
  · rw [if_pos hn]
  · rw [if_neg hn, matchesTotal_self x]
    have hx : (0 : ℚ) < ((x.length + x.length : Nat) : ℚ) := by
      have : 0 < x.length + x.length := by omega
      exact_mod_cast this
    rw [div_eq_one_iff_eq (by exact ne_of_gt hx)]
    push_cast
    ring

/-! ### Claim C5: identical normalized inputs score exactly 1 -/

/-- Claim C5: `similarity(s, s) = 1.0` for every string, and any two
inputs with identical normalized forms score exactly `1.0`. -/
theorem c5_similarity_one_of_equal_norms :
    (∀ s, sql_similarity s s = 1) ∧
      (∀ a b, normalize_sql a = normalize_sql b → sql_similarity a b = 1) := by
  constructor
  · intro s
    unfold sql_similarity
    exact smRatio_self _
  · intro a b h
    unfold sql_similarity
    rw [h]
    exact smRatio_self _

/-- Witness for claim C5 at `"SELECT 1"` against itself and against
the differently-written `"select  1;"`. -/
theorem c5_witness :
    sql_similarity ("SELECT 1".data) ("SELECT 1".data) = 1 ∧
      sql_similarity ("SELECT 1".data) ("select  1;".data) = 1 :=
  ⟨c5_similarity_one_of_equal_norms.1 ("SELECT 1".data),
   c5_similarity_one_of_equal_norms.2 ("SELECT 1".data) ("select  1;".data) (by decide)⟩

/-! ### Claim C1: execution accuracy is a function of the two outcomes -/

/-- Claim C1: the per-case execution accuracy is determined solely by
the two `(success, result)` outcomes of executing the predicted and the
reference SQL: equal successful payloads score 1, differing successful
payloads 0, two failures 1 regardless of their messages, and a mixed
pair 0 — exactly the case analysis `accOf`. -/
theorem c1_execution_accuracy_outcome_function {σ α : Type} [DecidableEq α]
    (ora : DbOracle σ α) (s : σ) (predicted_sql reference_sql : List Char) :
    (execution_accuracy ora s predicted_sql reference_sql).1 =
      accOf (execute_sql ora s predicted_sql).1
        (execute_sql ora (execute_sql ora s predicted_sql).2.1 reference_sql).1 := by
  unfold execution_accuracy accOf
  rcases h1 : execute_sql ora s predicted_sql with ⟨pr, s1, tr1⟩
  show (match execute_sql ora s1 reference_sql with
    | (rr, s2, _) =>
      ((if pr.1 = true ∧ rr.1 = true then if pr.2 = rr.2 then (1 : ℚ) else 0
        else if pr.1 = false ∧ rr.1 = false then 1 else 0), s2)).1 = _
  rcases h2 : execute_sql ora s1 reference_sql with ⟨rr, s2, tr2⟩
  rfl

/-! ### Claim C7: the executor never leaks exceptions or connections -/

/-- Claim C7: `execute_sql` converts every raised error into a
`(False, message)` value instead of propagating it, releases the
connection it opened on every exit path (including both error paths),
and a failed mutating statement leaves the database state unchanged
(close without commit). -/
theorem c7_execute_sql_catches_and_releases {σ α : Type} (ora : DbOracle σ α)
    (s : σ) (sql : List Char) :
    ((execute_sql ora s sql).2.2.opened = true →
      (execute_sql ora s sql).2.2.closed = true) ∧
    (∀ e, ora.connectErr s = some e →
      execute_sql ora s sql = ((false, ExecResult.err e), s, ⟨false, false, false⟩)) ∧
    (∀ e, ora.connectErr s = none → sqlStartsWith "SELECT" sql = true →
      ora.queryRows s sql = Except.error e →
      execute_sql ora s sql = ((false, ExecResult.err e), s, ⟨true, true, false⟩)) ∧
    (∀ e, ora.connectErr s = none → sqlStartsWith "SELECT" sql = false →
      ora.execCount s sql = Except.error e →
      execute_sql ora s sql = ((false, ExecResult.err e), s, ⟨true, true, false⟩)) := by
  refine ⟨?_, ?_, ?_, ?_⟩
  · intro hop
    unfold execute_sql at hop ⊢
    cases hc : ora.connectErr s with
    | some e =>
      rw [hc] at hop
      exact absurd hop (by simp)
    | none =>
      by_cases hsel : sqlStartsWith "SELECT" sql = true
      · rw [if_pos hsel]
        cases hq : ora.queryRows s sql <;> rfl
      · rw [if_neg hsel]
        cases hq : ora.execCount s sql with
        | error e => rfl
        | ok p => rcases p with ⟨n, s2⟩ ; rfl
  · intro e he
    unfold execute_sql
    rw [he]
  · intro e hc hsel hq
    unfold execute_sql
    rw [hc, if_pos hsel, hq]
  · intro e hc hsel hq
    unfold execute_sql
    rw [hc, if_neg (by simp [hsel]), hq]

/-- Witness for claim C7: a failing connect, a failing read and a
failing mutation, each at a concrete oracle and statement. -/
theorem c7_witness :
    execute_sql connFailOracle () ("SELECT 1".data)
      = ((false, ExecResult.err "unable to open database file"), (), ⟨false, false, false⟩) ∧
    execute_sql errOracle () ("SELECT 1".data)
      = ((false, ExecResult.err "no such table: t"), (), ⟨true, true, false⟩) ∧
    execute_sql errOracle () ("DELETE FROM t".data)
      = ((false, ExecResult.err "no such table: t"), (), ⟨true, true, false⟩) :=
  ⟨(c7_execute_sql_catches_and_releases connFailOracle () ("SELECT 1".data)).2.1 _ rfl,
   (c7_execute_sql_catches_and_releases errOracle () ("SELECT 1".data)).2.2.1 _ rfl
     (by decide) rfl,
   (c7_execute_sql_catches_and_releases errOracle () ("DELETE FROM t".data)).2.2.2 _ rfl
     (by decide) rfl⟩

/-! ### Claim C8: classification of statements by the executor -/

/-- Claim C8 says the executor classifies by the trimmed,
case-insensitive LEADING TOKEN being `SELECT`.  The code instead tests
the string prefix: for `"selectx from t"` the leading token is
`SELECTX`, not `SELECT`, so the claim requires the mutating path
(commit, affected-row count), yet the code takes the read path and
returns rows without committing. -/
theorem c8_leading_token_cex :
    leadingToken ("selectx from t".data) ≠ "SELECT".data ∧
      execute_sql unitOracle () ("selectx from t".data)
        = ((true, ExecResult.rows []), (), ⟨true, true, false⟩) := by
  constructor
  · decide
  · rfl

/-- Claim C8 amended: the executor classifies by whether the trimmed,
upper-cased statement STARTS WITH `SELECT`; on that path it returns the
full ordered row sequence without committing, otherwise it executes,
commits, and returns the affected-row count. -/
theorem c8_execute_sql_prefix_classification {σ α : Type} (ora : DbOracle σ α)
    (s : σ) (sql : List Char) (hc : ora.connectErr s = none) :
    (sqlStartsWith "SELECT" sql = true →
      ∀ rs, ora.queryRows s sql = Except.ok rs →
        execute_sql ora s sql = ((true, ExecResult.rows rs), s, ⟨true, true, false⟩)) ∧
    (sqlStartsWith "SELECT" sql = false →
      ∀ n s2, ora.execCount s sql = Except.ok (n, s2) →
        execute_sql ora s sql = ((true, ExecResult.count n), s2, ⟨true, true, true⟩)) := by
  constructor
  · intro hsel rs hq
    unfold execute_sql
    rw [hc, if_pos hsel, hq]
  · intro hsel n s2 hq
    unfold execute_sql
    rw [hc, if_neg (by simp [hsel]), hq]

/-- Witness for the amended claim C8: a read and a mutation at the
concrete oracle. -/
theorem c8_witness :
    execute_sql unitOracle () ("SELECT 1".data)
      = ((true, ExecResult.rows []), (), ⟨true, true, false⟩) ∧
    execute_sql unitOracle () ("DELETE FROM t".data)
      = ((true, ExecResult.count 0), (), ⟨true, true, true⟩) :=
  ⟨(c8_execute_sql_prefix_classification unitOracle () ("SELECT 1".data) rfl).1
     (by decide) _ rfl,
   (c8_execute_sql_prefix_classification unitOracle () ("DELETE FROM t".data) rfl).2
     (by decide) _ _ rfl⟩

/-! ### Claim C10: the predicted SQL runs twice per case -/

theorem execution_accuracy_state {σ α : Type} [DecidableEq α] (ora : DbOracle σ α)
    (s : σ) (p r : List Char) :
    (execution_accuracy ora s p r).2 =
      (execute_sql ora (execute_sql ora s p).2.1 r).2.1 := by
  unfold execution_accuracy
  rcases h1 : execute_sql ora s p with ⟨pr, s1, tr1⟩
  show (match execute_sql ora s1 r with
    | (rr, s2, _) =>
      ((if pr.1 = true ∧ rr.1 = true then if pr.2 = rr.2 then (1 : ℚ) else 0
        else if pr.1 = false ∧ rr.1 = false then 1 else 0), s2)).2 = _
  rcases h2 : execute_sql ora s1 r with ⟨rr, s2, tr2⟩
  rfl

/-- Claim C10: within one `evaluate_single_query` call the predicted
SQL is executed twice — once inside `execution_accuracy` and once more
for `is_executable` — threading the database state through all three
`execute_sql` invocations; with a non-idempotent mutating prediction
(`onceOracle`) the `is_executable` flag disagrees with the successful
predicted outcome that `execution_accuracy` saw, and with an always
succeeding mutating prediction (`incrOracle`) the side effect is
committed twice, leaving the counter at 2. -/
theorem c10_predicted_sql_executed_twice :
    (∀ (σ α : Type) [DecidableEq α] (ora : DbOracle σ α)
      (gen : List Char → List Char) (s : σ) (question reference_sql : List Char),
      (evaluate_single_query ora gen s question reference_sql).2 =
        (execute_sql ora
          (execute_sql ora (execute_sql ora s (gen question)).2.1 reference_sql).2.1
          (gen question)).2.1 ∧
      (evaluate_single_query ora gen s question reference_sql).1.is_executable =
        (execute_sql ora
          (execute_sql ora (execute_sql ora s (gen question)).2.1 reference_sql).2.1
          (gen question)).1.1 ∧
      (evaluate_single_query ora gen s question reference_sql).1.execution_accuracy =
        (execution_accuracy ora s (gen question) reference_sql).1) ∧
    ((evaluate_single_query onceOracle insGen 0 ("q".data) ("SELECT 1".data)).1.is_executable
        = false ∧
      (execute_sql onceOracle 0 (insGen ("q".data))).1.1 = true ∧
      (execute_sql onceOracle 0 (insGen ("q".data))).2.2.committed = true) ∧
    ((evaluate_single_query incrOracle insGen 0 ("q".data) ("SELECT 1".data)).2 = 2 ∧
      (execute_sql incrOracle 0 (insGen ("q".data))).2.2.committed = true) := by
  refine ⟨?_, ⟨?_, ?_, ?_⟩, ?_, ?_⟩
  · intro σ α _ ora gen s q ref
    refine ⟨?_, ?_, rfl⟩
    · show (execute_sql ora (execution_accuracy ora s (gen q) ref).2 (gen q)).2.1 = _
      rw [execution_accuracy_state]
    · show (execute_sql ora (execution_accuracy ora s (gen q) ref).2 (gen q)).1.1 = _
      rw [execution_accuracy_state]
  · decide
  · decide
  · decide
  · decide
  · decide

/-! ### Claim C2: empty aggregation and nonpositive sampling -/

/-- Claim C2 says `evaluate_dataset []` and nonpositive sampling raise
a precondition error.  Neither does: the empty aggregation returns a
defaulted report whose means are NaN (modelled `none`), and sampling
with count 0 silently returns the empty selection. -/
theorem c2_no_precondition_error_cex :
    evaluate_dataset unitOracle emptyGen () []
      = (⟨0, none, none, none, none, []⟩, ()) ∧
    select_test_subset [⟨"q1".data, "SELECT 1".data⟩] 0 = [] := by
  constructor
  · rfl
  · decide

theorem pySliceTo_zero (l : List β) : pySliceTo l 0 = [] := by
  simp [pySliceTo, pySlice, pyIdx]

/-- Claim C2 amended: aggregating an empty case list returns a report
with `total_samples = 0` and NaN-valued (undefined) means instead of
raising, and sampling with count 0 silently returns the empty
selection; no precondition error is signalled in either case. -/
theorem c2_empty_inputs_silently_defaulted {σ α : Type} [DecidableEq α]
    (ora : DbOracle σ α) (gen : List Char → List Char) (s : σ) :
    evaluate_dataset ora gen s [] = (⟨0, none, none, none, none, []⟩, s) ∧
    ∀ corpus, select_test_subset corpus 0 = [] := by
  constructor
  · rfl
  · intro corpus
    cases corpus with
    | nil => rfl
    | cons t ts =>
      unfold select_test_subset
      rw [if_neg (by
        intro hle
        rw [List.length_cons] at hle
        push_cast at hle
        omega)]
      exact pySliceTo_zero _

/-! ### Claim C9: the stratified sampler -/

theorem pySlice_coe (l : List β) (a b : Nat) :
    pySlice l (a : Int) (b : Int) = (l.drop a).take (b - a) := by
  unfold pySlice pyIdx
  rw [if_neg (by omega), if_neg (by omega), Int.toNat_natCast, Int.toNat_natCast]
  by_cases han : a ≤ l.length
  · rw [min_eq_left han, List.drop_take]
    by_cases hbn : b ≤ l.length
    · rw [min_eq_left hbn]
    · rw [min_eq_right (by omega)]
      rw [List.take_of_length_le (by rw [List.length_drop]), 
        List.take_of_length_le (by rw [List.length_drop] ; omega)]
  · rw [min_eq_right (by omega)]
    rw [List.drop_eq_nil_of_le (by rw [List.length_take] ; omega),
      List.drop_eq_nil_of_le (by omega)]
    rw [List.take_nil]

theorem pySliceTo_coe (l : List β) (k : Nat) : pySliceTo l (k : Int) = l.take k := by
  unfold pySliceTo
  have h := pySlice_coe l 0 k
  rw [Nat.cast_zero] at h
  rw [h, List.drop_zero, Nat.sub_zero]

theorem int_fdiv_coe_two (m : Nat) : ((m : Int)).fdiv 2 = ((m / 2 : Nat) : Int) := by
  rw [Int.fdiv_eq_tdiv (by positivity) (by norm_num)]
  exact_mod_cast (Int.ofNat_tdiv m 2).symm

theorem int_fdiv_coe_six (m : Nat) : ((m : Int)).fdiv 6 = ((m / 6 : Nat) : Int) := by
  rw [Int.fdiv_eq_tdiv (by positivity) (by norm_num)]
  exact_mod_cast (Int.ofNat_tdiv m 6).symm

/-- Claim C9 states the sampler partitions the corpus by
case-insensitive LEADING KEYWORD (any other leading keyword excluded
from every bucket).  The code buckets by the trimmed-uppercase PREFIX
test instead: on `c9cexCorpus`, whose first reference SQL is
`"selectx 1"` (leading keyword `SELECTX`, so in no bucket of the
claim's partition), with `count = 2` in the claimed regime
`0 ≤ count < |corpus|`, the code samples `selectx 1` into the SELECT
quota while the claim's sampler picks `SELECT 1`: the two selections
differ. -/
theorem c9_keyword_partition_cex :
    select_test_subset c9cexCorpus 2 ≠ specSampleKeyword c9cexCorpus 2 ∧
      select_test_subset c9cexCorpus 2 =
        [⟨"q0".data, "selectx 1".data⟩, ⟨"q4".data, "DELETE 1".data⟩] ∧
      specSampleKeyword c9cexCorpus 2 =
        [⟨"q1".data, "SELECT 1".data⟩, ⟨"q4".data, "DELETE 1".data⟩] := by
  refine ⟨?_, by decide, by decide⟩
  decide

/-- Claim C9 amended: buckets are determined by whether the trimmed,
upper-cased reference SQL STARTS WITH `SELECT`/`INSERT`/`UPDATE`/
`DELETE` (the code's prefix test, not the leading keyword); with that
partition, for `0 ≤ count < |corpus|` the sampler takes the
prefix-quota of each bucket (SELECT half, INSERT and UPDATE a sixth
each, DELETE the remainder, every quota capped at its bucket), concats
in that order, backfills from the unused SELECT tail and truncates to
`count`; and on the concrete 10/3/3/2 corpus with `count = 6` it
returns the first 3 SELECTs, first INSERT, first UPDATE and first
DELETE in that order. -/
theorem c9_select_test_subset_stratified :
    (∀ (corpus : List TestCase) (count : Int), 0 ≤ count → count < (corpus.length : Int) →
      select_test_subset corpus count = specSample corpus count.toNat) ∧
    select_test_subset c9corpus 6 =
      [⟨"qs0".data, "SELECT 0".data⟩, ⟨"qs1".data, "SELECT 1".data⟩,
       ⟨"qs2".data, "SELECT 2".data⟩, ⟨"qi0".data, "INSERT 0".data⟩,
       ⟨"qu0".data, "UPDATE 0".data⟩, ⟨"qd0".data, "DELETE 0".data⟩] := by
  constructor
  · intro corpus count h0 h1
    obtain ⟨cn, rfl⟩ : ∃ cn : Nat, count = (cn : Int) :=
      ⟨count.toNat, (Int.toNat_of_nonneg h0).symm⟩
    rw [Int.toNat_natCast]
    unfold select_test_subset specSample
    rw [if_neg (by omega)]
    simp only [int_fdiv_coe_two, int_fdiv_coe_six, ← Nat.cast_min]
    set S := corpus.filter (fun t => sqlStartsWith "SELECT" t.sql) with hS
    set I := corpus.filter (fun t => sqlStartsWith "INSERT" t.sql) with hI
    set U := corpus.filter (fun t => sqlStartsWith "UPDATE" t.sql) with hU
    set D := corpus.filter (fun t => sqlStartsWith "DELETE" t.sql) with hD
    set sq := min (cn / 2) S.length with hsq
    set iq := min (cn / 6) I.length with hiq
    set uq := min (cn / 6) U.length with huq
    have hsum : sq + iq + uq ≤ cn := by
      have h2 := Nat.min_le_left (cn / 2) S.length
      have h6 := Nat.min_le_left (cn / 6) I.length
      have h6b := Nat.min_le_left (cn / 6) U.length
      omega
    have hsub : ((cn : Int) - sq - iq - uq) = ((cn - sq - iq - uq : Nat) : Int) := by
      omega
    simp only [hsub, ← Nat.cast_min]
    set dq := min (cn - sq - iq - uq) D.length with hdq
    simp only [pySliceTo_coe]
    set base := S.take sq ++ I.take iq ++ U.take uq ++ D.take dq with hbase
    by_cases hrem : (0 : Int) < (cn : Int) - base.length
    · rw [if_pos hrem]
      have harith : ((sq : Int)) + ((cn : Int) - base.length)
          = ((sq + (cn - base.length) : Nat) : Int) := by omega
      rw [harith, pySlice_coe]
      have harith2 : sq + (cn - base.length) - sq = cn - base.length := by omega
      rw [harith2]
    · rw [if_neg hrem]
      have hz : cn - base.length = 0 := by omega
      rw [hz, List.take_zero, List.append_nil]
  · decide

/-- Witness for claim C9: the general statement applied to the
concrete corpus and count 6 (its hypotheses are checked by
computation). -/
theorem c9_witness : select_test_subset c9corpus 6 = specSample c9corpus (6 : Int).toNat :=
  c9_select_test_subset_stratified.1 c9corpus 6 (by decide) (by decide)

end Sakila
